import Mathlib

/-!
# Verification of the neoads container engine

Shallow embedding of the neoads abstract data structures (doubly linked
list, hash-uniqued set, key/value map) persisted in a property-graph
store.  Each Lean definition translates one Python method of the source
(`neoads/ads_core.py`, `neoads/ads_abstractdllist.py`,
`neoads/ads_abstractset.py`, `neoads/ads_abstractmap.py`, with the
complete older copies of the same methods in `neoads/core.py`), read at
the level of the client-observable effect of the Cypher queries each
method issues.

Conventions of the embedding:
* element references (graph node identities of payload elements) are `Nat`;
* an element's content hash is a `Nat`; the source renders it as a
  lowercase hex string (`f"{hash_value:x}"`) both when storing a
  `SetItem.hash_value` and when comparing in `contains_hash`, and hex
  rendering of a natural number is injective, so tag equality in the
  store is equality of the underlying naturals;
* Python exceptions are values of `PyErr`; fallible operations return
  `Except PyErr`.
-/

namespace Neoads

/-- The Python exception classes the container engine can raise
(`IndexError`, `neoads.exception.ContainerNotEmpty`, `KeyError`,
`TypeError`). -/
inductive PyErr where
  | indexError
  | containerNotEmpty
  | keyError
  | typeError
  deriving DecidableEq, Repr

/-! ## Doubly linked list (`AbstractDLList`)

A persisted `AbstractDLList` owns a `DLL_NXT` edge to its head
`DLListItem`; the chain of `DLL_NXT` edges defines the order and every
`DLListItem` owns one `ABSTRACT_STRUCT_ITEM_VALUE` edge to its payload
element.  The embedding keeps the chain reachable from the anchor as a
`List Nat` of payload references (head first) together with the cached
`length` property (`neomodel.IntegerProperty(default=0)`). -/

/-- State of a persisted `AbstractDLList`: `items` is the chain of
wrapper items reachable from the list anchor along `DLL_NXT`, each
represented by the reference of the payload element it holds; `length`
is the cached `length` node property. -/
structure DLList where
  items : List Nat
  length : Nat
  deriving DecidableEq, Repr

/-- A freshly created list: no anchor edge, cached length 0
(`AbstractDLList().save()`). -/
def DLList.empty : DLList := ⟨[], 0⟩

/-- Well-formedness: the cached length agrees with the number of wrapper
items reachable from the anchor (spec §3 invariant 1, which holds at the
end of every completed operation). -/
def DLList.wf (l : DLList) : Prop := l.length = l.items.length

instance (l : DLList) : Decidable l.wf := by
  unfold DLList.wf; infer_instance

/-- Embedding of `AbstractDLList.append` (ads_abstractdllist.py lines 348-383).
Creates a wrapper item holding `e`; if the cached length is 0 the item
becomes the head, otherwise the tail (the unique chain item with no
outgoing `DLL_NXT`, found by one query whose empty result would raise
`IndexError`) is linked to it; the cached length is incremented. -/
def DLList.append (l : DLList) (e : Nat) : Except PyErr DLList :=
  if l.length = 0 then
    -- `self.head.connect(new_list_item)`: the new item becomes the head
    -- of the (empty) chain.
    .ok ⟨[e], l.length + 1⟩
  else
    match l.items with
    | [] => .error .indexError  -- tail query returns no rows: `[0][0][0]` fails
    | _ :: _ => .ok ⟨l.items ++ [e], l.length + 1⟩

/-- Embedding of `AbstractDLList.__getitem__` (ads_abstractdllist.py lines 122-144).
Validates `item_index < 0 or item_index > self.length` (note: `==
length` passes this guard), then walks `item_index + 1` `DLL_NXT` hops
from the anchor in one query; an empty query result (no item that many
hops away) raises `IndexError` from indexing the empty result list. -/
def DLList.getitem (l : DLList) (i : Int) : Except PyErr Nat :=
  if i < 0 ∨ i > (l.length : Int) then .error .indexError
  else
    match l.items[i.toNat]? with
    | some v => .ok v
    | none => .error .indexError

/-- Embedding of `AbstractDLList.__delitem__` (ads_abstractdllist.py lines 146-187).
Same bounds guard and item-location query as `__getitem__`; the located
item is bypassed (interior: reconnect both neighbours; head: advance the
anchor edge; tail: nothing beyond removal), deleted, and the cached
length is decremented.  On any error path no store write has happened
yet, so the list is unchanged. -/
def DLList.delitem (l : DLList) (i : Int) : Except PyErr DLList :=
  if i < 0 ∨ i > (l.length : Int) then .error .indexError
  else
    match l.items[i.toNat]? with
    | some _ => .ok ⟨l.items.eraseIdx i.toNat, l.length - 1⟩
    | none => .error .indexError

/-- Embedding of `CompositeAbstract.delete` (ads_core.py lines 60-70): raises
`ContainerNotEmpty` when `len(self) > 0`, otherwise removes the
container node (`super().delete()`); the fault is raised before any
store write, so a populated container and its wrapper items are left
unchanged. -/
def DLList.deleteOp (l : DLList) : Except PyErr Unit :=
  if 0 < l.length then .error .containerNotEmpty else .ok ()

/-- Embedding of `AbstractDLList.clear` (ads_abstractdllist.py lines 105-120): one
query detach-deletes every `DLListItem` reachable from the anchor over
`DLL_NXT`, then the cached length is set to 0 and saved. -/
def DLList.clearOp (_l : DLList) : DLList := ⟨[], 0⟩

/-- Sequential `append` of a list of elements (the build pattern of the
spec's list scenarios). -/
def DLList.appendAll (l : DLList) (es : List Nat) : Except PyErr DLList :=
  es.foldlM DLList.append l

/-! ## `extend_by_merging`

`AbstractDLList.extend_by_merging` (ads_abstractdllist.py lines
291-346) splices another list onto this one and erases the other list's
entry.  The embedding records, besides the updated receiver, the
store-level fate of the argument list: whether its anchor node was
removed and which of its wrapper items were erased from the store. -/

/-- Outcome of `extend_by_merging`: the updated receiver, whether the
argument list's anchor node was removed from the store, and the payload
references of the argument's wrapper items that were erased. -/
structure MergeOutcome where
  self : DLList
  otherEntryRemoved : Bool
  otherItemsDeleted : List Nat
  deriving DecidableEq, Repr

/-- Embedding of `AbstractDLList.extend_by_merging`.  Branches exactly as
the source does on the cached lengths:
* `len(self) > 0 and len(other_list) > 0`: the receiver's tail (query
  for the chain item with no outgoing `DLL_NXT`; empty result raises
  `IndexError`) is linked to the argument's head (`other_list.head[0]`,
  `IndexError` when absent), the receiver's cached length grows by the
  argument's, and the argument's anchor node is detach-deleted — its
  items are adopted, none is erased;
* `elif len(self) > 0` (reached only when the argument's cached length
  is 0): `other_list.head[0]` is evaluated first and raises
  `IndexError` on the empty head relationship, before any store write;
  the `some` arm (reachable only from a store state violating
  well-formedness, where the adopted chain replaces the anchor edge) is
  included for totality;
* `else` (receiver's cached length 0): `other_list.destroy()` =
  `clear()` then `delete()` — every wrapper item of the argument is
  detach-deleted and its anchor removed; the receiver is untouched. -/
def DLList.extend_by_merging (l other : DLList) : Except PyErr MergeOutcome :=
  if 0 < l.length ∧ 0 < other.length then
    match l.items, other.items.head? with
    | [], _ => .error .indexError
    | _ :: _, none => .error .indexError
    | _ :: _, some _ =>
        .ok ⟨⟨l.items ++ other.items, l.length + other.length⟩, true, []⟩
  else if 0 < l.length then
    match other.items.head? with
    | none => .error .indexError
    | some _ => .ok ⟨⟨other.items, other.length⟩, true, []⟩
  else
    .ok ⟨l, true, other.items⟩

/-! ## Hash-uniqued set (`AbstractSet`)

A persisted `AbstractSet` owns a `SET_ELEMENT` edge to each of its
`SetItem` wrapper nodes; each wrapper carries a `hash_value` tag and one
`ABSTRACT_STRUCT_ITEM_VALUE` edge to the element it holds.  The method
bodies are those of `ads_abstractset.py`; the `SetItem` node class and
the `elements` relationship, which that file's mid-refactor copy stubs
out, are taken from the identical complete implementation in
`neoads/core.py` (lines 389-428 and 682-820). -/

/-- A `SetItem` wrapper node (core.py lines 389-412): the `hash_value`
tag (stored as the lowercase hex rendering of the integer hash, which
is injective, so the underlying natural is kept) and the reference of
the element held. -/
structure SetItem where
  hash_value : Nat
  value : Nat
  deriving DecidableEq, Repr

/-- State of a persisted `AbstractSet`: the wrapper items attached to
the set node by `SET_ELEMENT` edges, in creation order. -/
structure AbstractSet where
  elements : List SetItem
  deriving DecidableEq, Repr

/-- A freshly created, empty set (`AbstractSet().save()`). -/
def AbstractSet.emptySet : AbstractSet := ⟨[]⟩

/-- Embedding of `AbstractSet.__len__` (core.py lines 525-532):
`len(self.elements)`, the number of `SET_ELEMENT` edges. -/
def AbstractSet.len (s : AbstractSet) : Nat := s.elements.length

/-- Embedding of `AbstractSet.contains_hash` (ads_abstractset.py lines
333-347): one query matching `SET_ELEMENT` wrappers whose `hash_value`
equals the hex rendering of the probe; true iff at least one row. -/
def AbstractSet.contains_hash (s : AbstractSet) (a_hash : Nat) : Bool :=
  s.elements.any fun it => it.hash_value == a_hash

/-- An element as seen by a set or map: its store reference and its
content hash `_neoads_hash()` (computed in memory, never by query). -/
structure Elem where
  ref : Nat
  hash : Nat
  deriving DecidableEq, Repr

/-- Embedding of `AbstractSet._add_element` (ads_abstractset.py lines
361-381): creates one `SetItem` tagged `a_hash`, connects its value
edge to `an_item` and a `SET_ELEMENT` edge from the set. -/
def AbstractSet.addElement (s : AbstractSet) (an_item : Nat) (a_hash : Nat) :
    AbstractSet :=
  ⟨s.elements ++ [⟨a_hash, an_item⟩]⟩

/-- Embedding of `AbstractSet.add` (ads_abstractset.py lines 447-465):
`__contains__` computes the element's hash and checks `contains_hash`;
only when absent does `_add_element` create a wrapper. -/
def AbstractSet.add (s : AbstractSet) (an_item : Elem) : AbstractSet :=
  if s.contains_hash an_item.hash then s
  else s.addElement an_item.ref an_item.hash

/-- Embedding of `AbstractSet.add_with_hash` (ads_abstractset.py lines
383-402): like `add` but with a caller-supplied hash (used by
`AbstractMap` to tag a value wrapper with its key's hash). -/
def AbstractSet.add_with_hash (s : AbstractSet) (an_item : Nat) (a_hash : Nat) :
    AbstractSet :=
  if s.contains_hash a_hash then s else s.addElement an_item a_hash

/-- Embedding of `AbstractSet.retrieve_by_hash` (ads_abstractset.py
lines 404-424): when `contains_hash` holds, one query returns the
matching wrapper rows and the first row is taken; otherwise `KeyError`. -/
def AbstractSet.retrieve_by_hash (s : AbstractSet) (a_hash : Nat) :
    Except PyErr SetItem :=
  if s.contains_hash a_hash then
    match s.elements.find? (fun it => it.hash_value == a_hash) with
    | some it => .ok it
    | none => .error .keyError
  else .error .keyError

/-- Embedding of `AbstractSet.remove_by_hash` (ads_abstractset.py lines
426-445): when `contains_hash` holds, one query detach-deletes every
wrapper whose tag matches; otherwise `KeyError`. -/
def AbstractSet.remove_by_hash (s : AbstractSet) (a_hash : Nat) :
    Except PyErr AbstractSet :=
  if s.contains_hash a_hash then
    .ok ⟨s.elements.filter fun it => it.hash_value != a_hash⟩
  else .error .keyError

/-- Embedding of `AbstractSet.clear` (ads_abstractset.py lines 467-474):
one query detach-deletes every wrapper attached by a `SET_ELEMENT` edge
(every wrapper also carries its value edge, so every wrapper matches). -/
def AbstractSet.clearOp (_s : AbstractSet) : AbstractSet := ⟨[]⟩

/-- Embedding of `CompositeAbstract.delete` for a set (ads_core.py lines
60-70 with `AbstractSet.__len__`): `ContainerNotEmpty` when populated,
raised before `super().delete()`, so nothing is written. -/
def AbstractSet.deleteOp (s : AbstractSet) : Except PyErr Unit :=
  if 0 < s.len then .error .containerNotEmpty else .ok ()

/-- Hash tags of a set's wrapper items, in wrapper order. -/
def AbstractSet.hashes (s : AbstractSet) : List Nat :=
  s.elements.map SetItem.hash_value

/-- Invariant 2 of the spec's data model: no two wrapper items of a Set
carry the same hash tag. -/
def AbstractSet.hashNodup (s : AbstractSet) : Prop := s.hashes.Nodup

instance (s : AbstractSet) : Decidable s.hashNodup := by
  unfold AbstractSet.hashNodup; infer_instance

/-- Wrapper re-creation used by `from_abstractset` and the set algebra
queries: for every source wrapper, `CREATE` a fresh `SetItem` with the
same `hash_value` pointing at the same value node (items are never
shared between sets). -/
def copyItems (items : List SetItem) : List SetItem :=
  items.map fun it => ⟨it.hash_value, it.value⟩

/-- Embedding of `AbstractSet.from_abstractset` (ads_abstractset.py
lines 56-90): with `auto_reset` the receiver is cleared first; a
populated receiver without the flag raises `ContainerNotEmpty`; then one
query re-creates each of the source's wrappers under the receiver. -/
def AbstractSet.from_abstractset (s other : AbstractSet) (auto_reset : Bool) :
    Except PyErr AbstractSet :=
  if auto_reset then .ok ⟨copyItems other.elements⟩
  else if 0 < s.len then .error .containerNotEmpty
  else .ok ⟨s.elements ++ copyItems other.elements⟩

/-- Embedding of `AbstractSet.__or__` (ads_abstractset.py lines
217-246): a fresh result set is initialised as a copy of `other` when
`len(self) == 0` and of `self` otherwise; a second query collects the
copied tags and re-creates, for each wrapper of `other` whose tag is
not among them, a wrapper holding the same value.  The base copy (the
`new_set.from_abstractset(...)` step of `__or__`) is split out as
`unionBase`. -/
def AbstractSet.unionBase (s other : AbstractSet) : AbstractSet :=
  if s.len = 0 then ⟨copyItems other.elements⟩ else ⟨copyItems s.elements⟩

/-- Second query of `AbstractSet.__or__`: see `unionBase`. -/
def AbstractSet.union (s other : AbstractSet) : AbstractSet :=
  ⟨(s.unionBase other).elements ++
    copyItems (other.elements.filter fun it =>
      !((s.unionBase other).contains_hash it.hash_value))⟩

/-- Embedding of `AbstractSet.__and__` (ads_abstractset.py lines
248-270): one query collects `self`'s tags and re-creates, for each
wrapper of `other` whose tag is among them, a wrapper with that tag
holding `other`'s value node, under a fresh result set. -/
def AbstractSet.inter (s other : AbstractSet) : AbstractSet :=
  ⟨copyItems (other.elements.filter fun it => s.contains_hash it.hash_value)⟩

/-- Embedding of `AbstractSet.__sub__` (ads_abstractset.py lines
272-295): one query collects `other`'s tags and re-creates, for each
wrapper of `self` whose tag is not among them, a wrapper under a fresh
result set. -/
def AbstractSet.sdiff (s other : AbstractSet) : AbstractSet :=
  ⟨copyItems (s.elements.filter fun it => !(other.contains_hash it.hash_value))⟩

/-- Embedding of `AbstractSet.__xor__` (ads_abstractset.py lines
297-331): two difference passes — the `__sub__` query for `self - other`
and then for `other - self` — populate the same fresh result set. -/
def AbstractSet.symmDiff (s other : AbstractSet) : AbstractSet :=
  ⟨(s.sdiff other).elements ++ (other.sdiff s).elements⟩

/-! ## Key/value map (`AbstractMap`)

A persisted `AbstractMap` (ads_abstractmap.py) owns one `KEYS_SET` and
one `VALUES_SET` edge to two component `AbstractSet`s, allocated lazily
by `_init_map`; `sets = none` models a map persisted before its first
use (no component edges), in which state `self.keys_set[0]` raises
`IndexError`. -/

/-- State of a persisted `AbstractMap`. -/
structure AbstractMap where
  sets : Option (AbstractSet × AbstractSet)
  deriving DecidableEq, Repr

/-- A freshly created map (`AbstractMap().save()`): no component sets
yet. -/
def AbstractMap.emptyMap : AbstractMap := ⟨none⟩

/-- Embedding of `AbstractMap._init_map` (ads_abstractmap.py lines
90-107): allocates two fresh empty `AbstractSet`s and connects them as
`KEYS_SET` and `VALUES_SET`. -/
def AbstractMap.init_map (_m : AbstractMap) : AbstractMap :=
  ⟨some (AbstractSet.emptySet, AbstractSet.emptySet)⟩

/-- Embedding of `AbstractMap.__len__` (ads_abstractmap.py lines
109-119): `len(self.keys_set[0])`; the `IndexError` of indexing a
missing `KEYS_SET` relationship is caught and 0 returned. -/
def AbstractMap.lenOp (m : AbstractMap) : Nat :=
  match m.sets with
  | some (ks, _) => ks.len
  | none => 0

/-- Embedding of `AbstractMap.__contains__` (ads_abstractmap.py lines
136-153): delegates to the key set's `contains_hash`; on the
`IndexError` of an uninitialised map, `_init_map` allocates the two
component sets and `False` is returned.  Returns the updated map state
and the answer. -/
def AbstractMap.containsOp (m : AbstractMap) (item : Elem) :
    AbstractMap × Bool :=
  match m.sets with
  | some (ks, vs) => (⟨some (ks, vs)⟩, ks.contains_hash item.hash)
  | none => (m.init_map, false)

/-- Embedding of `AbstractMap.__setitem__` (ads_abstractmap.py lines
173-203): a new key is added to the key set and the value added to the
value set under the key's hash; an existing key keeps its key wrapper
while the old value wrapper is removed by hash and the new one inserted
under the same hash; an uninitialised map is initialised first. -/
def AbstractMap.setitem (m : AbstractMap) (key : Elem) (value : Nat) :
    Except PyErr AbstractMap :=
  match m.sets with
  | none =>
      .ok ⟨some (AbstractSet.emptySet.add key,
                 AbstractSet.emptySet.add_with_hash value key.hash)⟩
  | some (ks, vs) =>
      if ks.contains_hash key.hash then
        match vs.remove_by_hash key.hash with
        | .ok vs2 => .ok ⟨some (ks, vs2.add_with_hash value key.hash)⟩
        | .error e => .error e
      else
        .ok ⟨some (ks.add key, vs.add_with_hash value key.hash)⟩

/-- Embedding of `AbstractMap.__delitem__` (ads_abstractmap.py lines
121-134): `retrieve_by_hash` on the key set and then on the value set
(each raising `KeyError` for an absent hash, before any store write);
the two retrieved wrapper nodes are then deleted.  On an uninitialised
map `self.keys_set[0]` raises `IndexError` (no handler here). -/
def AbstractMap.delitem (m : AbstractMap) (key : Elem) :
    Except PyErr AbstractMap :=
  match m.sets with
  | none => .error .indexError
  | some (ks, vs) =>
      match ks.retrieve_by_hash key.hash, vs.retrieve_by_hash key.hash with
      | .ok _, .ok _ =>
          .ok ⟨some (⟨ks.elements.eraseP fun it => it.hash_value == key.hash⟩,
                     ⟨vs.elements.eraseP fun it => it.hash_value == key.hash⟩)⟩
      | .error e, _ => .error e
      | .ok _, .error e => .error e

/-- Embedding of `AbstractMap.clear` (ads_abstractmap.py lines 261-270):
clears the value set then the key set; on the `IndexError` of an
uninitialised map, `_init_map` allocates them instead. -/
def AbstractMap.clearOp (m : AbstractMap) : AbstractMap :=
  match m.sets with
  | some _ => ⟨some (AbstractSet.emptySet, AbstractSet.emptySet)⟩
  | none => m.init_map

/-- Embedding of `CompositeAbstract.delete` for a map (ads_core.py lines
60-70 with `AbstractMap.__len__`). -/
def AbstractMap.deleteOp (m : AbstractMap) : Except PyErr Unit :=
  if 0 < m.lenOp then .error .containerNotEmpty else .ok ()

/-- A user-level map operation: write a key or delete a key. -/
inductive MapOp where
  | set (key : Elem) (value : Nat)
  | del (key : Elem)
  deriving DecidableEq, Repr

/-- Runs a sequence of map operations against the embedded map; an
operation that raises propagates its exception to the caller and leaves
the store unchanged (every fault of `__setitem__` / `__delitem__` is
raised before the first store write of that operation). -/
def runMapOps (m : AbstractMap) : List MapOp → AbstractMap
  | [] => m
  | MapOp.set k v :: ops =>
      match m.setitem k v with
      | .ok m2 => runMapOps m2 ops
      | .error _ => runMapOps m ops
  | MapOp.del k :: ops =>
      match m.delitem k with
      | .ok m2 => runMapOps m2 ops
      | .error _ => runMapOps m ops

/-- Lookup in the reference association list (first entry with the
probed key hash). -/
def amLookup (am : List (Nat × Nat)) (h : Nat) : Option Nat :=
  match am with
  | [] => none
  | (k, v) :: rest => if k = h then some v else amLookup rest h

/-- In-place value replacement in the reference association list. -/
def amUpdate (am : List (Nat × Nat)) (h v : Nat) : List (Nat × Nat) :=
  am.map fun p => if p.1 = h then (p.1, v) else p

/-- Modelled from the spec (reference model for C3, not from the
source): one map write — an existing key's value is replaced, a new key
is appended. -/
def amSetStep (am : List (Nat × Nat)) (h v : Nat) : List (Nat × Nat) :=
  if (amLookup am h).isSome then amUpdate am h v else am ++ [(h, v)]

/-- Modelled from the spec (reference model for C3, not from the
source): one map delete — a present key's entry is removed; a delete of
an absent key faults and changes nothing. -/
def amDelStep (am : List (Nat × Nat)) (h : Nat) : List (Nat × Nat) :=
  if (amLookup am h).isSome then am.filter fun p => p.1 != h else am

/-- Modelled from the spec (reference model for C3, not from the
source): the association of each key hash to "the value most recently
assigned to that key" after a sequence of map writes and deletes. -/
def specAssocRun (am : List (Nat × Nat)) : List MapOp → List (Nat × Nat)
  | [] => am
  | MapOp.set k v :: ops => specAssocRun (amSetStep am k.hash v) ops
  | MapOp.del k :: ops => specAssocRun (amDelStep am k.hash) ops

/-- Abstraction relation for C3: the two component sets realise the
reference association `am` — their tag collections are permutations of
`am`'s keys (which are duplicate-free) and each current `(hash, value)`
pair has its wrapper in the value set. -/
def MapAbs (ks vs : AbstractSet) (am : List (Nat × Nat)) : Prop :=
  (am.map Prod.fst).Nodup ∧
  ks.hashes.Perm (am.map Prod.fst) ∧
  vs.hashes.Perm (am.map Prod.fst) ∧
  ∀ h v, amLookup am h = some v → SetItem.mk h v ∈ vs.elements

/-- C3 invariant on whole map states: an unallocated map realises the
empty association; an allocated one realises `am` through `MapAbs`. -/
def MapInv (m : AbstractMap) (am : List (Nat × Nat)) : Prop :=
  match m.sets with
  | none => am = []
  | some (ks, vs) => MapAbs ks vs am

/-! ## Staged bulk construction (`AbstractDLList.from_query`)

`AbstractDLList.from_query` (ads_abstractdllist.py lines 385-458; the
same six queries appear in core.py lines 1326-1384) builds a list from
the `n` rows of a read query in a fixed number of store round trips by
staging every row's wrapper under an index-tagged `TEMP_LINK` edge and
then joining adjacent indices. -/

/-- Transient store state during the staged build.  The `n` wrapper
items created by the staging query are identified by their `item_id`
tag `0..n-1` (scoped to this list by name through the `of_list`
property); `temp` holds the ids still carrying a `TEMP_LINK` edge,
`nxt`/`prv` the `DLL_NXT`/`DLL_PRV` edges created among the items,
`headTo` the anchor's `DLL_NXT` edges, `rows` the payload references of
the query rows (the item tagged `i` holds `rows[i]`), `length` the list
node's `length` property and `queries` the number of store queries
issued. -/
structure BuildState where
  rows : List Nat
  temp : List Nat
  nxt : List (Nat × Nat)
  prv : List (Nat × Nat)
  headTo : List Nat
  length : Nat
  queries : Nat
  deriving DecidableEq, Repr

/-- Queries 1-2 of `from_query`: `SET a_list.length = 0`, then for every
result row `CREATE` one staged wrapper with `item_id = a_list.length`
and `SET a_list.length = a_list.length + 1`, so the rows receive ids
`0..n-1` and the length property ends at `n`. -/
def stageRows (rows : List Nat) : BuildState :=
  ⟨rows, List.range rows.length, [], [], [], rows.length, 2⟩

/-- Query 3 of `from_query`: for every staged `r1` with
`r1.item_id < a_list.length` and staged `r2` with
`r2.item_id = r1.item_id + 1`, `CREATE (r1 item)-[DLL_NXT]->(r2 item)`. -/
def linkForward (s : BuildState) : BuildState :=
  { s with
    nxt := s.nxt ++ (s.temp.filter fun i =>
      decide (i < s.length) && s.temp.contains (i + 1)).map fun i => (i, i + 1),
    queries := s.queries + 1 }

/-- Query 4 of `from_query`: for every staged `r1` with
`r1.item_id > 0` and staged `r2` with `r2.item_id = r1.item_id - 1`,
`CREATE (r1 item)-[DLL_PRV]->(r2 item)`. -/
def linkBackward (s : BuildState) : BuildState :=
  { s with
    prv := s.prv ++ (s.temp.filter fun i =>
      decide (0 < i) && s.temp.contains (i - 1)).map fun i => (i, i - 1),
    queries := s.queries + 1 }

/-- Query 5 of `from_query`: `CREATE` an anchor `DLL_NXT` edge to every
staged item tagged `item_id = 0`. -/
def attachHead (s : BuildState) : BuildState :=
  { s with
    headTo := s.headTo ++ s.temp.filter (fun i => i == 0),
    queries := s.queries + 1 }

/-- Query 6 of `from_query`: `DELETE` every remaining `TEMP_LINK`
staging edge. -/
def dropTempLinks (s : BuildState) : BuildState :=
  { s with temp := [], queries := s.queries + 1 }

/-- Embedding of `AbstractDLList.from_query` on a list whose query
yields the given rows: the reset guard (`ContainerNotEmpty` on a
populated list without `auto_reset`; with the flag the list is cleared
first), then the staged build pipeline. -/
def DLList.from_query (l : DLList) (rows : List Nat) (auto_reset : Bool) :
    Except PyErr BuildState :=
  if auto_reset then
    .ok (dropTempLinks (attachHead (linkBackward (linkForward (stageRows rows)))))
  else if 0 < l.length then .error .containerNotEmpty
  else
    .ok (dropTempLinks (attachHead (linkBackward (linkForward (stageRows rows)))))

/-- Walks `DLL_NXT` edges from item `i` (first matching edge per item),
bounded by fuel, listing the item ids visited. -/
def followNxt (nxt : List (Nat × Nat)) : Nat → Nat → List Nat
  | 0, _ => []
  | fuel + 1, i =>
      i :: (match nxt.find? (fun p => p.1 == i) with
            | some p => followNxt nxt fuel p.2
            | none => [])

/-- The chain read back from the anchor after the staged build: follow
the anchor's `DLL_NXT` edge, then `DLL_NXT` edges item to item. -/
def BuildState.chain (s : BuildState) : List Nat :=
  match s.headTo with
  | [] => []
  | h :: _ => followNxt s.nxt s.rows.length h

/-- The payloads along the rebuilt chain (the item tagged `i` holds the
element of row `i`). -/
def BuildState.chainValues (s : BuildState) : List Nat :=
  s.chain.map fun i => s.rows.getD i 0

theorem DLList.append_wf_ok (l : DLList) (hwf : l.wf) (e : Nat) :
    l.append e = .ok ⟨l.items ++ [e], l.items.length + 1⟩ := by
  rcases l with ⟨items, length⟩
  rcases items with _ | ⟨x, xs⟩ <;>
    simp_all [DLList.wf, DLList.append]

theorem DLList.appendAll_wf (l : DLList) (hwf : l.wf) (es : List Nat) :
    l.appendAll es = .ok ⟨l.items ++ es, (l.items ++ es).length⟩ := by
  induction es generalizing l with
  | nil =>
      rcases l with ⟨items, length⟩
      simp only [DLList.wf] at hwf
      subst hwf
      simp [DLList.appendAll]
      rfl
  | cons e es ih =>
      have h1 := l.append_wf_ok hwf e
      have hwf2 : (DLList.mk (l.items ++ [e]) (l.items.length + 1)).wf := by
        simp [DLList.wf]
      have h2 := ih _ hwf2
      simp only [DLList.appendAll, List.foldlM_cons] at *
      rw [h1]
      simpa using h2

/-- In-range indexed access on a well-formed list returns the payload of
the `i`-th chain item (walking `i+1` `DLL_NXT` hops from the anchor). -/
theorem DLList.getitem_nat (l : DLList) (hwf : l.wf) (i : Nat)
    (hi : i < l.items.length) :
    l.getitem (i : Int) = .ok l.items[i] := by
  have hguard : ¬((i : Int) < 0 ∨ (i : Int) > (l.length : Int)) := by
    rw [hwf]; omega
  rw [DLList.getitem, if_neg hguard]
  have ht : (i : Int).toNat = i := by omega
  rw [ht, List.getElem?_eq_getElem hi]

/-- C4. For a List built by `n` sequential `append` calls, `get i`
returns the `i`-th appended element and `length()` is `n`; deleting
index `k` yields length `n - 1` and `get k` then returns the element
formerly at index `k + 1`. -/
theorem claim_C4_list_append_get_delete (es : List Nat) (k : Nat)
    (hk : k + 1 < es.length) :
    DLList.empty.appendAll es = .ok ⟨es, es.length⟩ ∧
    (∀ i : Nat, (hi : i < es.length) →
      (DLList.mk es es.length).getitem (i : Int) = .ok (es.get ⟨i, hi⟩)) ∧
    (DLList.mk es es.length).delitem (k : Int) =
      .ok ⟨es.eraseIdx k, es.length - 1⟩ ∧
    (es.eraseIdx k).length = es.length - 1 ∧
    (DLList.mk (es.eraseIdx k) (es.length - 1)).getitem (k : Int) =
      .ok (es.get ⟨k + 1, hk⟩) := by
  have hlen : (es.eraseIdx k).length = es.length - 1 :=
    List.length_eraseIdx_of_lt (by omega)
  refine ⟨?_, ?_, ?_, hlen, ?_⟩
  · simpa [DLList.empty] using
      DLList.appendAll_wf DLList.empty rfl es
  · intro i hi
    have h := DLList.getitem_nat (DLList.mk es es.length) rfl i hi
    rw [h, List.get_eq_getElem]
  · have hguard : ¬((k : Int) < 0 ∨ (k : Int) > (es.length : Int)) := by
      omega
    rw [DLList.delitem]
    dsimp only
    rw [if_neg hguard]
    have ht : (k : Int).toNat = k := by omega
    rw [ht, List.getElem?_eq_getElem (by omega : k < es.length)]
  · have hwf2 : (DLList.mk (es.eraseIdx k) (es.length - 1)).wf := hlen.symm
    have hk2 : k < (es.eraseIdx k).length := by omega
    have h := DLList.getitem_nat _ hwf2 k hk2
    rw [h, List.get_eq_getElem]
    dsimp only
    rw [List.getElem_eraseIdx_of_ge _ _ _ hk2 (le_refl k)]

/-- Witness for C4: the spec's concrete scenario with elements `0..9`
and deletion at index 3. -/
theorem claim_C4_witness :
    DLList.empty.appendAll [0,1,2,3,4,5,6,7,8,9] =
      .ok ⟨[0,1,2,3,4,5,6,7,8,9], 10⟩ ∧
    (DLList.mk [0,1,2,3,4,5,6,7,8,9] 10).getitem 3 = .ok 3 ∧
    (DLList.mk [0,1,2,3,4,5,6,7,8,9] 10).delitem 3 =
      .ok ⟨[0,1,2,4,5,6,7,8,9], 9⟩ ∧
    (DLList.mk [0,1,2,4,5,6,7,8,9] 9).getitem 3 = .ok 4 := by
  have h := claim_C4_list_append_get_delete [0,1,2,3,4,5,6,7,8,9] 3
    (by decide)
  refine ⟨h.1, ?_, ?_, ?_⟩
  · simpa using h.2.1 3 (by decide)
  · simpa [List.eraseIdx] using h.2.2.1
  · simpa [List.eraseIdx] using h.2.2.2.2

/-- C5. On a well-formed list, indexed access and indexed deletion raise
`IndexError` exactly for indices outside `[0, length)`; in particular
`i = length` passes the explicit guard (`item_index > self.length` is
false) but the walk of `i+1` hops matches no item and the empty query
result raises `IndexError` before any store write, so the list is
unchanged; every in-range index is accepted. -/
theorem claim_C5_list_bounds (l : DLList) (hwf : l.wf) (i : Int) :
    (l.getitem i = .error .indexError ↔ i < 0 ∨ (l.length : Int) ≤ i) ∧
    (l.delitem i = .error .indexError ↔ i < 0 ∨ (l.length : Int) ≤ i) ∧
    (0 ≤ i ∧ i < (l.length : Int) →
      (∃ v, l.getitem i = .ok v) ∧
      l.delitem i = .ok ⟨l.items.eraseIdx i.toNat, l.length - 1⟩) := by
  rcases l with ⟨items, length⟩
  simp only [DLList.wf] at hwf
  subst hwf
  dsimp only
  refine ⟨?_, ?_, ?_⟩
  · rw [DLList.getitem]
    dsimp only
    by_cases hg : i < 0 ∨ i > ((items.length : Nat) : Int)
    · rw [if_pos hg]
      simp only [true_iff]
      omega
    · rw [if_neg hg]
      by_cases hlt : i.toNat < items.length
      · rw [List.getElem?_eq_getElem hlt]
        simp only [reduceCtorEq, false_iff]
        omega
      · rw [List.getElem?_eq_none (by omega)]
        simp only [true_iff]
        omega
  · rw [DLList.delitem]
    dsimp only
    by_cases hg : i < 0 ∨ i > ((items.length : Nat) : Int)
    · rw [if_pos hg]
      simp only [true_iff]
      omega
    · rw [if_neg hg]
      by_cases hlt : i.toNat < items.length
      · rw [List.getElem?_eq_getElem hlt]
        simp only [reduceCtorEq, false_iff]
        omega
      · rw [List.getElem?_eq_none (by omega)]
        simp only [true_iff]
        omega
  · rintro ⟨h0, hlt⟩
    have hg : ¬(i < 0 ∨ i > ((items.length : Nat) : Int)) := by omega
    have ht : i.toNat < items.length := by omega
    constructor
    · exact ⟨_, by rw [DLList.getitem, if_neg hg, List.getElem?_eq_getElem ht]⟩
    · rw [DLList.delitem, if_neg hg, List.getElem?_eq_getElem ht]

/-- Witness for C5 at the two-element list `[5, 7]`: index 2 (= length)
and index -1 fault, index 1 is accepted and deletes the tail. -/
theorem claim_C5_witness :
    (DLList.mk [5, 7] 2).getitem 2 = .error .indexError ∧
    (DLList.mk [5, 7] 2).getitem (-1) = .error .indexError ∧
    (DLList.mk [5, 7] 2).delitem 2 = .error .indexError ∧
    (DLList.mk [5, 7] 2).delitem 1 = .ok ⟨[5], 1⟩ := by
  refine ⟨?_, ?_, ?_, ?_⟩
  · exact (claim_C5_list_bounds (DLList.mk [5, 7] 2) rfl 2).1.mpr
      (by norm_num)
  · exact (claim_C5_list_bounds (DLList.mk [5, 7] 2) rfl (-1)).1.mpr
      (by norm_num)
  · exact (claim_C5_list_bounds (DLList.mk [5, 7] 2) rfl 2).2.1.mpr
      (by norm_num)
  · simpa [List.eraseIdx] using
      ((claim_C5_list_bounds (DLList.mk [5, 7] 2) rfl 1).2.2
        (by norm_num)).2

/-- Claim C1: `delete()` (not `destroy()`) on any persisted container —
List, Set or Map — with positive length raises the non-empty-container
fault before any store write, so the container and its wrapper items are
unchanged; a bulk reset (`from_query` / `from_abstractset` without
`auto_reset`) on a populated container raises the same fault; `delete()`
on an empty container succeeds. -/
theorem claim_C1_nonempty_container_fault (l : DLList) (s : AbstractSet)
    (m : AbstractMap) (other : AbstractSet) (rows : List Nat) :
    (0 < l.length → l.deleteOp = .error .containerNotEmpty) ∧
    (0 < s.len → s.deleteOp = .error .containerNotEmpty) ∧
    (0 < m.lenOp → m.deleteOp = .error .containerNotEmpty) ∧
    (0 < s.len → s.from_abstractset other false = .error .containerNotEmpty) ∧
    (0 < l.length → l.from_query rows false = .error .containerNotEmpty) ∧
    (l.length = 0 → l.deleteOp = .ok ()) ∧
    (s.len = 0 → s.deleteOp = .ok ()) ∧
    (m.lenOp = 0 → m.deleteOp = .ok ()) := by
  refine ⟨?_, ?_, ?_, ?_, ?_, ?_, ?_, ?_⟩ <;> intro h <;>
    simp [DLList.deleteOp, AbstractSet.deleteOp, AbstractMap.deleteOp,
      AbstractSet.from_abstractset, DLList.from_query, h]

/-- Witness for C1: a one-item list, one-item set and one-entry map
reject `delete()` and bulk resets; their empty counterparts accept
`delete()`. -/
theorem claim_C1_witness :
    (DLList.mk [4] 1).deleteOp = .error .containerNotEmpty ∧
    (AbstractSet.mk [⟨3, 7⟩]).deleteOp = .error .containerNotEmpty ∧
    (AbstractMap.mk (some (⟨[⟨3, 7⟩]⟩, ⟨[⟨3, 9⟩]⟩))).deleteOp =
      .error .containerNotEmpty ∧
    (AbstractSet.mk [⟨3, 7⟩]).from_abstractset ⟨[]⟩ false =
      .error .containerNotEmpty ∧
    (DLList.mk [4] 1).from_query [8] false = .error .containerNotEmpty ∧
    DLList.empty.deleteOp = .ok () ∧
    AbstractSet.emptySet.deleteOp = .ok () ∧
    AbstractMap.emptyMap.deleteOp = .ok () := by
  have h := claim_C1_nonempty_container_fault (DLList.mk [4] 1)
    (AbstractSet.mk [⟨3, 7⟩]) (AbstractMap.mk (some (⟨[⟨3, 7⟩]⟩, ⟨[⟨3, 9⟩]⟩)))
    ⟨[]⟩ [8]
  have h2 := claim_C1_nonempty_container_fault DLList.empty
    AbstractSet.emptySet AbstractMap.emptyMap ⟨[]⟩ [8]
  exact ⟨h.1 (by decide), h.2.1 (by decide), h.2.2.1 (by decide),
    h.2.2.2.1 (by decide), h.2.2.2.2.1 (by decide),
    h2.2.2.2.2.2.1 (by decide), h2.2.2.2.2.2.2.1 (by decide),
    h2.2.2.2.2.2.2.2 (by decide)⟩

/-- Hash-tag membership: `contains_hash` answers true exactly when some
wrapper of the set carries the probed tag. -/
theorem contains_hash_iff (s : AbstractSet) (h : Nat) :
    s.contains_hash h = true ↔ h ∈ s.hashes := by
  simp only [AbstractSet.contains_hash, AbstractSet.hashes, List.any_eq_true,
    List.mem_map, beq_iff_eq]

/-- Claim C2: adding an element whose hash tag is already present in a
Set is a no-op (state, hence `length()`, unchanged, no second wrapper);
when the hash is absent, exactly one wrapper tagged with the element's
hash is created and the length grows by one; `add` and `add_with_hash`
preserve the no-duplicate-hash-tags invariant. -/
theorem claim_C2_set_add_uniqueness (s : AbstractSet) (e : Elem) :
    (s.contains_hash e.hash = true → s.add e = s) ∧
    (s.contains_hash e.hash = false →
      (s.add e).elements = s.elements ++ [⟨e.hash, e.ref⟩] ∧
      (s.add e).len = s.len + 1 ∧
      ((s.add e).elements.filter fun it => it.hash_value == e.hash).length
        = 1) ∧
    (s.hashNodup → (s.add e).hashNodup) ∧
    (∀ v hsh, s.hashNodup → (s.add_with_hash v hsh).hashNodup) := by
  refine ⟨?_, ?_, ?_, ?_⟩
  · intro h; simp [AbstractSet.add, h]
  · intro h
    have hall : ∀ it ∈ s.elements, ¬(it.hash_value == e.hash) = true := by
      simpa [AbstractSet.contains_hash] using h
    refine ⟨by simp [AbstractSet.add, AbstractSet.addElement, h], ?_, ?_⟩
    · simp [AbstractSet.add, AbstractSet.addElement, AbstractSet.len, h]
    · have hnil : s.elements.filter (fun it => it.hash_value == e.hash) = [] :=
        List.filter_eq_nil_iff.mpr hall
      simp [AbstractSet.add, AbstractSet.addElement, h, List.filter_append,
        hnil]
  · intro hnd
    by_cases h : s.contains_hash e.hash
    · simpa [AbstractSet.add, h] using hnd
    · have hmem : e.hash ∉ s.hashes := fun hm =>
        by simp [(contains_hash_iff s e.hash).mpr hm] at h
      simp only [AbstractSet.add, h, if_neg, Bool.false_eq_true,
        not_false_eq_true, if_false]
      simp only [AbstractSet.hashNodup, AbstractSet.hashes,
        AbstractSet.addElement, List.map_append, List.map_cons, List.map_nil]
      refine List.Nodup.append hnd (List.nodup_singleton _) ?_
      intro x hx hx2
      simp only [List.mem_singleton] at hx2
      subst hx2
      exact hmem hx
  · intro v hsh hnd
    by_cases h : s.contains_hash hsh
    · simpa [AbstractSet.add_with_hash, h] using hnd
    · have hmem : hsh ∉ s.hashes := fun hm =>
        by simp [(contains_hash_iff s hsh).mpr hm] at h
      simp only [AbstractSet.add_with_hash, h, Bool.false_eq_true,
        not_false_eq_true, if_false]
      simp only [AbstractSet.hashNodup, AbstractSet.hashes,
        AbstractSet.addElement, List.map_append, List.map_cons, List.map_nil]
      refine List.Nodup.append hnd (List.nodup_singleton _) ?_
      intro x hx hx2
      simp only [List.mem_singleton] at hx2
      subst hx2
      exact hmem hx

/-- Witness for C2 at the set `{(tag 3, value 7)}`: re-adding tag 3 is a
no-op; adding tag 5 appends exactly one wrapper. -/
theorem claim_C2_witness :
    (AbstractSet.mk [⟨3, 7⟩]).add ⟨9, 3⟩ = AbstractSet.mk [⟨3, 7⟩] ∧
    (AbstractSet.mk [⟨3, 7⟩]).add ⟨9, 5⟩ = AbstractSet.mk [⟨3, 7⟩, ⟨5, 9⟩] ∧
    ((AbstractSet.mk [⟨3, 7⟩]).add ⟨9, 5⟩).len = 2 := by
  have h := claim_C2_set_add_uniqueness (AbstractSet.mk [⟨3, 7⟩]) ⟨9, 3⟩
  have h2 := claim_C2_set_add_uniqueness (AbstractSet.mk [⟨3, 7⟩]) ⟨9, 5⟩
  refine ⟨h.1 (by decide), ?_, ?_⟩
  · have := (h2.2.1 (by decide)).1
    rcases hadd : (AbstractSet.mk [⟨3, 7⟩]).add ⟨9, 5⟩ with ⟨els⟩
    rw [hadd] at this
    simpa using this
  · have := (h2.2.1 (by decide)).2.1
    simpa using this

/-- Claim C6: after `clear()` completes on a List, Set or Map, no
wrapper item remains reachable from the container's anchor(s) and
`length()` returns 0 (for the list the `length` property is reset; for
the set and map the live element count is 0). -/
theorem claim_C6_clear_empties (l : DLList) (s : AbstractSet)
    (m : AbstractMap) :
    l.clearOp.items = [] ∧ l.clearOp.length = 0 ∧
    s.clearOp.elements = [] ∧ s.clearOp.len = 0 ∧
    m.clearOp.lenOp = 0 ∧
    (∀ ks vs, m.clearOp.sets = some (ks, vs) →
      ks.elements = [] ∧ vs.elements = []) := by
  refine ⟨rfl, rfl, rfl, rfl, ?_, ?_⟩
  · rcases m with ⟨_ | ⟨ks, vs⟩⟩ <;> rfl
  · rcases m with ⟨_ | ⟨ks, vs⟩⟩ <;>
      · intro ks2 vs2 hsome
        simp only [AbstractMap.clearOp, AbstractMap.init_map,
          Option.some.injEq, Prod.mk.injEq] at hsome
        exact ⟨by rw [← hsome.1]; rfl, by rw [← hsome.2]; rfl⟩

/-- Witness for C6: clearing a populated one-item list, set and map. -/
theorem claim_C6_witness :
    (DLList.mk [4] 1).clearOp = DLList.empty ∧
    (AbstractSet.mk [⟨3, 7⟩]).clearOp = AbstractSet.emptySet ∧
    (AbstractMap.mk (some (⟨[⟨3, 7⟩]⟩, ⟨[⟨3, 9⟩]⟩))).clearOp.lenOp = 0 ∧
    ((AbstractMap.mk (some (⟨[⟨3, 7⟩]⟩, ⟨[⟨3, 9⟩]⟩))).clearOp.sets =
      some (AbstractSet.emptySet, AbstractSet.emptySet)) := by
  have h := claim_C6_clear_empties (DLList.mk [4] 1)
    (AbstractSet.mk [⟨3, 7⟩]) (AbstractMap.mk (some (⟨[⟨3, 7⟩]⟩, ⟨[⟨3, 9⟩]⟩)))
  refine ⟨?_, ?_, h.2.2.2.2.1, by decide⟩
  · have h1 := h.1
    have h2 := h.2.1
    rcases hc : (DLList.mk [4] 1).clearOp with ⟨its, ln⟩
    rw [hc] at h1 h2
    simp only at h1 h2
    simp [DLList.empty, h1, h2]
  · have h1 := h.2.2.1
    rcases hc : (AbstractSet.mk [⟨3, 7⟩]).clearOp with ⟨els⟩
    rw [hc] at h1
    simp only at h1
    simp [AbstractSet.emptySet, h1]

/-- Claim C7 is refuted by the code (code bug): evaluating
`extend_by_merging` shows (1) with an empty receiver and a two-item
argument, execution reaches the `other_list.destroy()` arm — the
adoption branch is guarded by `len(self) > 0` where its own comment
("If this list is empty but other_list is not") and the spec require
`len(other_list) > 0` — so the argument's wrapper items `[10, 20]` are
erased from the store and the receiver stays empty with length 0
instead of adopting the argument's head with length 2; (2) with a
non-empty receiver and an empty argument, instead of a structural
no-op, `other_list.head[0]` raises `IndexError`; (3) the both-non-empty
splice behaves as the claim states. -/
theorem claim_C7_extend_by_merging_bug :
    DLList.empty.extend_by_merging ⟨[10, 20], 2⟩ =
      .ok ⟨DLList.empty, true, [10, 20]⟩ ∧
    DLList.empty.extend_by_merging ⟨[10, 20], 2⟩ ≠
      .ok ⟨⟨[10, 20], 2⟩, true, []⟩ ∧
    (DLList.mk [1] 1).extend_by_merging ⟨[], 0⟩ = .error .indexError ∧
    (DLList.mk [1] 1).extend_by_merging ⟨[2], 1⟩ =
      .ok ⟨⟨[1, 2], 2⟩, true, []⟩ := by
  have h1 : DLList.empty.extend_by_merging ⟨[10, 20], 2⟩ =
      .ok ⟨DLList.empty, true, [10, 20]⟩ := rfl
  refine ⟨h1, ?_, rfl, rfl⟩
  rw [h1]
  intro hcon
  simp [DLList.empty, MergeOutcome.mk.injEq, DLList.mk.injEq] at hcon

/-- Claim C10: on a persisted map whose component sets have not yet been
allocated (no `KEYS_SET`/`VALUES_SET` edges), `length()` returns 0 and
membership testing returns `False` while allocating the two component
sets as a side effect; neither raises. -/
theorem claim_C10_uninitialised_map (m : AbstractMap) (hm : m.sets = none)
    (key : Elem) :
    m.lenOp = 0 ∧
    (m.containsOp key).2 = false ∧
    (m.containsOp key).1 =
      ⟨some (AbstractSet.emptySet, AbstractSet.emptySet)⟩ := by
  rcases m with ⟨sets⟩
  simp only at hm
  subst hm
  exact ⟨rfl, rfl, rfl⟩

/-- Re-created wrapper items coincide with their sources (same tag and
value reference, fresh node identity, which the embedding does not
track). -/
theorem copyItems_eq (items : List SetItem) : copyItems items = items := by
  show items.map (fun it => it) = items
  exact List.map_id' items

/-- Structure eta: a set is its list of wrappers. -/
theorem AbstractSet.mk_elements (s : AbstractSet) :
    AbstractSet.mk s.elements = s := rfl

/-- Negative form of `contains_hash_iff`. -/
theorem contains_hash_false_iff (s : AbstractSet) (h : Nat) :
    s.contains_hash h = false ↔ h ∉ s.hashes := by
  rw [← Bool.not_eq_true, not_iff_not]
  exact contains_hash_iff s h

/-- the `contains_hash` probe decides membership in the tag list. -/
theorem contains_hash_eq_decide (s : AbstractSet) (h : Nat) :
    s.contains_hash h = decide (h ∈ s.hashes) := by
  by_cases hm : h ∈ s.hashes
  · rw [(contains_hash_iff s h).mpr hm, decide_eq_true hm]
  · rw [(contains_hash_false_iff s h).mpr hm, decide_eq_false hm]

/-- Wrapper items of a difference set come from the left operand and
their tags are absent from the right operand. -/
theorem mem_sdiff_elements {U V : AbstractSet} {it : SetItem}
    (hmem : it ∈ (U.sdiff V).elements) :
    it ∈ U.elements ∧ V.contains_hash it.hash_value = false := by
  rw [AbstractSet.sdiff, copyItems_eq] at hmem
  have h := List.mem_filter.mp hmem
  exact ⟨h.1, by simpa using h.2⟩

/-- Tags of a difference set are tags of the left operand. -/
theorem sdiff_hashes_subset (U V : AbstractSet) :
    (U.sdiff V).hashes ⊆ U.hashes := by
  intro h hm
  simp only [AbstractSet.hashes, AbstractSet.sdiff, copyItems_eq,
    List.mem_map] at hm ⊢
  rcases hm with ⟨it, hit, rfl⟩
  exact ⟨it, (List.mem_filter.mp hit).1, rfl⟩

/-- Splitting a list by a Boolean predicate partitions its length. -/
theorem length_filter_add_length_filter_not (l : List SetItem)
    (p : SetItem → Bool) :
    (l.filter p).length + (l.filter fun a => !p a).length = l.length := by
  induction l with
  | nil => rfl
  | cons x xs ih =>
      cases hx : p x <;> simp [List.filter_cons, hx] <;> omega

/-- Filtering the tag list and filtering the wrapper list by the same
tag predicate give the same count. -/
theorem length_filter_hashes (els : List SetItem) (p : Nat → Bool) :
    ((els.map SetItem.hash_value).filter p).length =
    (els.filter fun it => p it.hash_value).length := by
  rw [← List.countP_eq_length_filter, ← List.countP_eq_length_filter,
    List.countP_map]
  rfl

/-- For duplicate-free lists, counting elements of one that belong to
the other is symmetric (both count the intersection). -/
theorem length_filter_mem_comm (as bs : List Nat) (ha : as.Nodup)
    (hb : bs.Nodup) :
    (bs.filter fun h => decide (h ∈ as)).length =
    (as.filter fun h => decide (h ∈ bs)).length := by
  have key : ∀ (xs ys : List Nat), ys.Nodup →
      (ys.filter fun h => decide (h ∈ xs)).length =
      (ys.toFinset ∩ xs.toFinset).card := by
    intro xs ys hys
    rw [← List.toFinset_card_of_nodup (hys.filter _), List.toFinset_filter]
    congr 1
    ext a
    simp
  rw [key as bs hb, key bs as ha, Finset.inter_comm]

/-- Claim C8, first law: the two difference passes of `__xor__` produce
exactly the wrappers that re-running `__sub__` twice and merging with
`__or__` produces — `(U − V) ∪ (V − U)` equals `U ⊕ V` (here even as
identical wrapper lists, hence same membership by hash tag). -/
theorem symmDiff_as_union (U V : AbstractSet) :
    (U.sdiff V).union (V.sdiff U) = U.symmDiff V := by
  by_cases hA : (U.sdiff V).len = 0
  · have hAe : (U.sdiff V).elements = [] := by
      simpa [AbstractSet.len, List.length_eq_zero] using hA
    have hbase : (U.sdiff V).unionBase (V.sdiff U) = V.sdiff U := by
      rw [AbstractSet.unionBase, if_pos hA, copyItems_eq,
        AbstractSet.mk_elements]
    have hfil : (V.sdiff U).elements.filter
        (fun it => !((V.sdiff U).contains_hash it.hash_value)) = [] := by
      apply List.filter_eq_nil_iff.mpr
      intro it hit
      have hc : (V.sdiff U).contains_hash it.hash_value = true :=
        (contains_hash_iff _ _).mpr (List.mem_map_of_mem _ hit)
      simp [hc]
    rw [AbstractSet.union, hbase, hfil, AbstractSet.symmDiff, hAe]
    simp [copyItems]
  · have hbase : (U.sdiff V).unionBase (V.sdiff U) = U.sdiff V := by
      rw [AbstractSet.unionBase, if_neg hA, copyItems_eq,
        AbstractSet.mk_elements]
    have hfil : (V.sdiff U).elements.filter
        (fun it => !((U.sdiff V).contains_hash it.hash_value)) =
        (V.sdiff U).elements := by
      apply List.filter_eq_self.mpr
      intro it hit
      have h1 : U.contains_hash it.hash_value = false :=
        (mem_sdiff_elements hit).2
      have h2 : (U.sdiff V).contains_hash it.hash_value = false := by
        apply (contains_hash_false_iff _ _).mpr
        intro hm
        exact absurd (sdiff_hashes_subset U V hm)
          ((contains_hash_false_iff U _).mp h1)
      simp [h2]
    rw [AbstractSet.union, hbase, hfil, copyItems_eq, AbstractSet.symmDiff]

/-- Claim C8: `(U − V) ∪ (V − U)` equals `U ⊕ V`, and
`len(U ∩ V) + len(U ⊕ V) = len(U ∪ V)` for sets satisfying the
no-duplicate-tag invariant (each operator builds a fresh result set of
re-created wrappers; operands are read, never written). -/
theorem claim_C8_set_algebra (U V : AbstractSet)
    (hU : U.hashNodup) (hV : V.hashNodup) :
    (U.sdiff V).union (V.sdiff U) = U.symmDiff V ∧
    (U.inter V).len + (U.symmDiff V).len = (U.union V).len := by
  refine ⟨symmDiff_as_union U V, ?_⟩
  by_cases hU0 : U.len = 0
  · have hUe : U.elements = [] := by
      simpa [AbstractSet.len, List.length_eq_zero] using hU0
    have hUmk : U = AbstractSet.mk [] := by
      rw [← AbstractSet.mk_elements U, hUe]
    subst hUmk
    have hbase : (AbstractSet.mk []).unionBase V = V := by
      rw [AbstractSet.unionBase, if_pos (show (AbstractSet.mk []).len = 0
        from rfl), copyItems_eq, AbstractSet.mk_elements]
    have hfil : V.elements.filter
        (fun it => !(V.contains_hash it.hash_value)) = [] := by
      apply List.filter_eq_nil_iff.mpr
      intro it hit
      have hc : V.contains_hash it.hash_value = true :=
        (contains_hash_iff _ _).mpr (List.mem_map_of_mem _ hit)
      simp [hc]
    have h1 : (AbstractSet.mk []).inter V = AbstractSet.mk [] := by
      rw [AbstractSet.inter,
        List.filter_eq_nil_iff.mpr (fun a _ => by
          simp [AbstractSet.contains_hash])]
      rfl
    have h2 : (AbstractSet.mk []).sdiff V = AbstractSet.mk [] := rfl
    have h3 : V.sdiff (AbstractSet.mk []) = V := by
      rw [AbstractSet.sdiff,
        List.filter_eq_self.mpr (fun a _ => by
          simp [AbstractSet.contains_hash]),
        copyItems_eq, AbstractSet.mk_elements]
    have h4 : (AbstractSet.mk []).union V = V := by
      rw [AbstractSet.union, hbase, hfil]
      rw [show copyItems [] = [] from rfl, List.append_nil,
        AbstractSet.mk_elements]
    rw [h1, h4, AbstractSet.symmDiff, h2, h3]
    simp [AbstractSet.len]
  · have hbase : U.unionBase V = U := by
      rw [AbstractSet.unionBase, if_neg hU0, copyItems_eq,
        AbstractSet.mk_elements]
    have hswap : (V.elements.filter fun it =>
        U.contains_hash it.hash_value).length =
        (U.elements.filter fun it => V.contains_hash it.hash_value).length := by
      rw [← length_filter_hashes, ← length_filter_hashes]
      have e1 : (V.elements.map SetItem.hash_value).filter
          (fun h => U.contains_hash h) =
          V.hashes.filter (fun h => decide (h ∈ U.hashes)) :=
        List.filter_congr fun a _ => contains_hash_eq_decide U a
      have e2 : (U.elements.map SetItem.hash_value).filter
          (fun h => V.contains_hash h) =
          U.hashes.filter (fun h => decide (h ∈ V.hashes)) :=
        List.filter_congr fun a _ => contains_hash_eq_decide V a
      rw [e1, e2, length_filter_mem_comm U.hashes V.hashes hU hV]
    have hsplit := length_filter_add_length_filter_not U.elements
      (fun it => V.contains_hash it.hash_value)
    simp only [AbstractSet.inter, AbstractSet.symmDiff, AbstractSet.sdiff,
      AbstractSet.union, hbase, AbstractSet.len, copyItems_eq,
      List.length_append]
    omega

/-- Witness for C8: the spec's concrete scenario with tag sets
`U = {1, 2, 3}` and `V = {2, 3, 5, 6}` (each element's value reference
equal to its tag). -/
theorem claim_C8_witness :
    ((AbstractSet.mk [⟨1, 1⟩, ⟨2, 2⟩, ⟨3, 3⟩]).sdiff
        (AbstractSet.mk [⟨2, 2⟩, ⟨3, 3⟩, ⟨5, 5⟩, ⟨6, 6⟩])).union
      ((AbstractSet.mk [⟨2, 2⟩, ⟨3, 3⟩, ⟨5, 5⟩, ⟨6, 6⟩]).sdiff
        (AbstractSet.mk [⟨1, 1⟩, ⟨2, 2⟩, ⟨3, 3⟩])) =
      (AbstractSet.mk [⟨1, 1⟩, ⟨2, 2⟩, ⟨3, 3⟩]).symmDiff
        (AbstractSet.mk [⟨2, 2⟩, ⟨3, 3⟩, ⟨5, 5⟩, ⟨6, 6⟩]) ∧
    ((AbstractSet.mk [⟨1, 1⟩, ⟨2, 2⟩, ⟨3, 3⟩]).inter
        (AbstractSet.mk [⟨2, 2⟩, ⟨3, 3⟩, ⟨5, 5⟩, ⟨6, 6⟩])).len +
      ((AbstractSet.mk [⟨1, 1⟩, ⟨2, 2⟩, ⟨3, 3⟩]).symmDiff
        (AbstractSet.mk [⟨2, 2⟩, ⟨3, 3⟩, ⟨5, 5⟩, ⟨6, 6⟩])).len =
      ((AbstractSet.mk [⟨1, 1⟩, ⟨2, 2⟩, ⟨3, 3⟩]).union
        (AbstractSet.mk [⟨2, 2⟩, ⟨3, 3⟩, ⟨5, 5⟩, ⟨6, 6⟩])).len :=
  claim_C8_set_algebra
    (AbstractSet.mk [⟨1, 1⟩, ⟨2, 2⟩, ⟨3, 3⟩])
    (AbstractSet.mk [⟨2, 2⟩, ⟨3, 3⟩, ⟨5, 5⟩, ⟨6, 6⟩])
    (by decide) (by decide)

/-- A key hash resolves in the reference association exactly when it is
one of its keys. -/
theorem amLookup_isSome_iff (am : List (Nat × Nat)) (h : Nat) :
    (amLookup am h).isSome ↔ h ∈ am.map Prod.fst := by
  induction am with
  | nil => simp [amLookup]
  | cons p rest ih =>
      rcases p with ⟨k, v⟩
      by_cases hk : k = h
      · subst hk; simp [amLookup]
      · simp [amLookup, hk, ih, Ne.symm hk]

/-- In-place update does not change the key list. -/
theorem amUpdate_keys (am : List (Nat × Nat)) (h v : Nat) :
    (amUpdate am h v).map Prod.fst = am.map Prod.fst := by
  unfold amUpdate
  rw [List.map_map]
  exact List.map_congr_left fun p _ => by by_cases hp : p.1 = h <;> simp [hp]

/-- In-place update rewrites the looked-up value of the updated key. -/
theorem amLookup_update_self (am : List (Nat × Nat)) (h v : Nat) :
    amLookup (amUpdate am h v) h = (amLookup am h).map fun _ => v := by
  induction am with
  | nil => rfl
  | cons p rest ih =>
      rcases p with ⟨k, w⟩
      show amLookup ((if k = h then (k, v) else (k, w)) :: amUpdate rest h v) h
          = Option.map (fun _ => v) (amLookup ((k, w) :: rest) h)
      by_cases hk : k = h
      · rw [if_pos hk]
        show (if k = h then some v else amLookup (amUpdate rest h v) h)
            = Option.map (fun _ => v) (if k = h then some w else amLookup rest h)
        rw [if_pos hk, if_pos hk]
        rfl
      · rw [if_neg hk]
        show (if k = h then some w else amLookup (amUpdate rest h v) h)
            = Option.map (fun _ => v) (if k = h then some w else amLookup rest h)
        rw [if_neg hk, if_neg hk]
        exact ih

/-- In-place update leaves other keys' values alone. -/
theorem amLookup_update_ne (am : List (Nat × Nat)) (h v h2 : Nat)
    (hne : h2 ≠ h) :
    amLookup (amUpdate am h v) h2 = amLookup am h2 := by
  induction am with
  | nil => rfl
  | cons p rest ih =>
      rcases p with ⟨k, w⟩
      show amLookup ((if k = h then (k, v) else (k, w)) :: amUpdate rest h v) h2
          = amLookup ((k, w) :: rest) h2
      by_cases hkh : k = h
      · rw [if_pos hkh]
        show (if k = h2 then some v else amLookup (amUpdate rest h v) h2)
            = (if k = h2 then some w else amLookup rest h2)
        have hk2 : ¬(k = h2) := fun he => hne (he.symm.trans hkh)
        rw [if_neg hk2, if_neg hk2]
        exact ih
      · rw [if_neg hkh]
        show (if k = h2 then some w else amLookup (amUpdate rest h v) h2)
            = (if k = h2 then some w else amLookup rest h2)
        by_cases hk2 : k = h2
        · rw [if_pos hk2, if_pos hk2]
        · rw [if_neg hk2, if_neg hk2]
          exact ih

/-- Appending a fresh entry leaves other keys' lookups alone. -/
theorem amLookup_append_ne (am : List (Nat × Nat)) (h v h2 : Nat)
    (hne : h2 ≠ h) :
    amLookup (am ++ [(h, v)]) h2 = amLookup am h2 := by
  induction am with
  | nil => simp [amLookup, Ne.symm hne]
  | cons p rest ih =>
      rcases p with ⟨k, w⟩
      by_cases hk2 : k = h2 <;> simp [amLookup, hk2, ih]

/-- Appending a fresh entry makes its key resolve to its value. -/
theorem amLookup_append_self (am : List (Nat × Nat)) (h v : Nat)
    (habs : amLookup am h = none) :
    amLookup (am ++ [(h, v)]) h = some v := by
  induction am with
  | nil => simp [amLookup]
  | cons p rest ih =>
      rcases p with ⟨k, w⟩
      by_cases hk : k = h
      · subst hk; simp [amLookup] at habs
      · rw [amLookup] at habs
        simp only [hk, if_false] at habs
        simpa [amLookup, hk] using ih habs

/-- Removing a key makes its lookup fail. -/
theorem amLookup_filter_self (am : List (Nat × Nat)) (h : Nat) :
    amLookup (am.filter fun p => p.1 != h) h = none := by
  induction am with
  | nil => rfl
  | cons p rest ih =>
      rcases p with ⟨k, w⟩
      by_cases hk : k = h
      · simp [List.filter_cons, hk, ih]
      · simp [List.filter_cons, hk, amLookup, ih]

/-- Removing a key leaves other keys' lookups alone. -/
theorem amLookup_filter_ne (am : List (Nat × Nat)) (h h2 : Nat)
    (hne : h2 ≠ h) :
    amLookup (am.filter fun p => p.1 != h) h2 = amLookup am h2 := by
  induction am with
  | nil => rfl
  | cons p rest ih =>
      rcases p with ⟨k, w⟩
      by_cases hk : k = h
      · have hk2 : ¬(k = h2) := fun he => hne (he.symm.trans hk)
        rw [List.filter_cons, if_neg (by simp [hk]), ih]
        show amLookup rest h2 = (if k = h2 then some w else amLookup rest h2)
        rw [if_neg hk2]
      · rw [List.filter_cons, if_pos (by simp [hk])]
        show (if k = h2 then some w else
            amLookup (rest.filter fun p => p.1 != h) h2)
          = (if k = h2 then some w else amLookup rest h2)
        by_cases hk2 : k = h2
        · rw [if_pos hk2, if_pos hk2]
        · rw [if_neg hk2, if_neg hk2]
          exact ih

/-- Removing a key from the association removes it from the key list. -/
theorem amFilter_keys (am : List (Nat × Nat)) (h : Nat) :
    (am.filter fun p => p.1 != h).map Prod.fst =
    (am.map Prod.fst).filter fun x => x != h := by
  induction am with
  | nil => rfl
  | cons p rest ih =>
      rcases p with ⟨k, w⟩
      by_cases hk : (k != h) = true <;> simp [List.filter_cons, hk, ih]

/-- Filtering wrappers by tag and filtering the tag list agree. -/
theorem filter_tags_comm (els : List SetItem) (h : Nat) :
    ((els.filter fun it => it.hash_value != h).map SetItem.hash_value) =
    (els.map SetItem.hash_value).filter fun x => x != h := by
  induction els with
  | nil => rfl
  | cons x xs ih =>
      by_cases hx : (x.hash_value != h) = true <;>
        simp [List.filter_cons, hx, ih]

/-- `hashes` of a tag-filtered set as a filter of the tag list. -/
theorem hashes_filter_mk (s : AbstractSet) (h : Nat) :
    (AbstractSet.mk (s.elements.filter fun it => it.hash_value != h)).hashes
      = s.hashes.filter fun x => x != h :=
  filter_tags_comm s.elements h

/-- Under the no-duplicate-tag invariant the node deleted by
`__delitem__` (the first wrapper matching the hash) is the only one, so
deleting it equals filtering the tag out. -/
theorem eraseP_tag_eq_filter (els : List SetItem)
    (hnd : (els.map SetItem.hash_value).Nodup) (h : Nat) :
    els.eraseP (fun it => it.hash_value == h) =
    els.filter fun it => it.hash_value != h := by
  induction els with
  | nil => rfl
  | cons x xs ih =>
      simp only [List.map_cons, List.nodup_cons] at hnd
      by_cases hx : x.hash_value = h
      · rw [List.eraseP_cons_of_pos (by simp [hx]),
          List.filter_cons_of_neg (by simp [hx])]
        symm
        apply List.filter_eq_self.mpr
        intro a ha
        simp only [bne_iff_ne, ne_eq, decide_eq_true_eq]
        intro hah
        have hmm : a.hash_value ∈ xs.map SetItem.hash_value :=
          List.mem_map_of_mem _ ha
        rw [hah, ← hx] at hmm
        exact absurd hmm hnd.1
      · rw [List.eraseP_cons_of_neg (by simp [hx]),
          List.filter_cons_of_pos (by simp [hx]), ih hnd.2]

/-- Under the no-duplicate-tag invariant, the first wrapper found for a
tag is the wrapper holding that tag's value. -/
theorem find_tag_of_nodup (els : List SetItem)
    (hnd : (els.map SetItem.hash_value).Nodup) (h v : Nat)
    (hmem : SetItem.mk h v ∈ els) :
    els.find? (fun it => it.hash_value == h) = some ⟨h, v⟩ := by
  induction els with
  | nil => cases hmem
  | cons x xs ih =>
      simp only [List.map_cons, List.nodup_cons] at hnd
      rcases List.mem_cons.mp hmem with hx | hx
      · rw [← hx]
        simp
      · have hxt : ¬((x.hash_value == h) = true) := by
          simp only [beq_iff_eq]
          intro hxh
          have hmm : (SetItem.mk h v).hash_value ∈ xs.map SetItem.hash_value :=
            List.mem_map_of_mem _ hx
          simp only at hmm
          rw [← hxh] at hmm
          exact absurd hmm hnd.1
        have hxf : (x.hash_value == h) = false := by
          simpa using hxt
        simp only [List.find?, hxf]
        exact ih hnd.2 hx

/-- Tag count equals wrapper count. -/
theorem hashes_length (s : AbstractSet) : s.hashes.length = s.len := by
  simp [AbstractSet.hashes, AbstractSet.len]

/-- The empty component sets realise the empty association. -/
theorem MapAbs_empty : MapAbs AbstractSet.emptySet AbstractSet.emptySet [] :=
  ⟨List.nodup_nil, List.Perm.refl _, List.Perm.refl _,
    fun _ _ hl => absurd hl (by simp [amLookup])⟩

/-- Inserting a fresh key: appending the key wrapper, the value wrapper
and the association entry preserves the abstraction. -/
theorem MapAbs_insert (ks vs : AbstractSet) (am : List (Nat × Nat))
    (k : Elem) (v : Nat) (habs : MapAbs ks vs am)
    (hnot : ¬((amLookup am k.hash).isSome = true)) :
    MapAbs ⟨ks.elements ++ [⟨k.hash, k.ref⟩]⟩
      ⟨vs.elements ++ [⟨k.hash, v⟩]⟩ (am ++ [(k.hash, v)]) := by
  rcases habs with ⟨hnd, hpk, hpv, hval⟩
  have hmemk : k.hash ∉ am.map Prod.fst := fun hm =>
    hnot ((amLookup_isSome_iff am k.hash).mpr hm)
  have hnone : amLookup am k.hash = none :=
    Option.not_isSome_iff_eq_none.mp (by simpa using hnot)
  refine ⟨?_, ?_, ?_, ?_⟩
  · rw [List.map_append]
    refine List.Nodup.append hnd (List.nodup_singleton _) ?_
    intro x hx hx2
    simp only [List.map_cons, List.map_nil, List.mem_singleton] at hx2
    subst hx2
    exact hmemk hx
  · simp only [AbstractSet.hashes, List.map_append, List.map_cons,
      List.map_nil]
    exact hpk.append_right _
  · simp only [AbstractSet.hashes, List.map_append, List.map_cons,
      List.map_nil]
    exact hpv.append_right _
  · intro h2 v2 hl
    by_cases hh : h2 = k.hash
    · subst hh
      rw [amLookup_append_self am k.hash v hnone] at hl
      cases hl
      exact List.mem_append_right _ (List.mem_singleton.mpr rfl)
    · rw [amLookup_append_ne am k.hash v h2 hh] at hl
      exact List.mem_append_left _ (hval h2 v2 hl)

/-- Embedded `__setitem__` never faults under the invariant and tracks
one reference-model write. -/
theorem setitem_step (m : AbstractMap) (am : List (Nat × Nat)) (k : Elem)
    (v : Nat) (hinv : MapInv m am) :
    ∃ m2, m.setitem k v = .ok m2 ∧ MapInv m2 (amSetStep am k.hash v) := by
  rcases m with ⟨_ | ⟨ks, vs⟩⟩
  · have ham : am = [] := hinv
    subst ham
    refine ⟨_, rfl, ?_⟩
    show MapAbs ⟨[] ++ [⟨k.hash, k.ref⟩]⟩ ⟨[] ++ [⟨k.hash, v⟩]⟩
      ([] ++ [(k.hash, v)])
    exact MapAbs_insert AbstractSet.emptySet AbstractSet.emptySet [] k v
      MapAbs_empty (by simp [amLookup])
  · have habs : MapAbs ks vs am := hinv
    rcases habs with ⟨hnd, hpk, hpv, hval⟩
    have hknd : ks.hashes.Nodup := (List.Perm.nodup_iff hpk).mpr hnd
    have hvnd : vs.hashes.Nodup := (List.Perm.nodup_iff hpv).mpr hnd
    by_cases hc : ks.contains_hash k.hash = true
    · -- the key exists: the old value wrapper is removed and the new
      -- one inserted under the same hash
      have hmemkeys : k.hash ∈ am.map Prod.fst :=
        hpk.mem_iff.mp ((contains_hash_iff ks k.hash).mp hc)
      have hsome : (amLookup am k.hash).isSome = true :=
        (amLookup_isSome_iff am k.hash).mpr hmemkeys
      have hmv : k.hash ∈ vs.hashes := hpv.mem_iff.mpr hmemkeys
      have hcv : vs.contains_hash k.hash = true :=
        (contains_hash_iff _ _).mpr hmv
      have hrem : vs.remove_by_hash k.hash =
          .ok ⟨vs.elements.filter fun it => it.hash_value != k.hash⟩ := by
        rw [AbstractSet.remove_by_hash, if_pos hcv]
      have hcf : (AbstractSet.mk (vs.elements.filter fun it =>
          it.hash_value != k.hash)).contains_hash k.hash = false := by
        apply (contains_hash_false_iff _ _).mpr
        intro hm
        have hm2 : k.hash ∈ (vs.elements.map SetItem.hash_value).filter
            (fun x => x != k.hash) := by
          rw [← filter_tags_comm]
          exact hm
        have := (List.mem_filter.mp hm2).2
        simp at this
      have hadd : (AbstractSet.mk (vs.elements.filter fun it =>
          it.hash_value != k.hash)).add_with_hash v k.hash =
          ⟨(vs.elements.filter fun it => it.hash_value != k.hash) ++
            [⟨k.hash, v⟩]⟩ := by
        rw [AbstractSet.add_with_hash, if_neg (by simp [hcf]),
          AbstractSet.addElement]
      refine ⟨⟨some (ks, ⟨(vs.elements.filter fun it =>
          it.hash_value != k.hash) ++ [⟨k.hash, v⟩]⟩)⟩, ?_, ?_⟩
      · simp only [AbstractMap.setitem]
        rw [if_pos hc, hrem]
        dsimp only
        rw [hadd]
      · rw [amSetStep, if_pos hsome]
        refine ⟨?_, ?_, ?_, ?_⟩
        · rw [amUpdate_keys]; exact hnd
        · rw [amUpdate_keys]; exact hpk
        · rw [amUpdate_keys]
          simp only [AbstractSet.hashes, List.map_append, List.map_cons,
            List.map_nil]
          rw [filter_tags_comm]
          have e1 : ((vs.elements.map SetItem.hash_value).filter
              (fun x => x != k.hash)).Perm
              ((am.map Prod.fst).filter fun x => x != k.hash) :=
            hpv.filter _
          have e2 : (am.map Prod.fst).filter (fun x => x != k.hash) =
              (am.map Prod.fst).erase k.hash :=
            (List.Nodup.erase_eq_filter hnd k.hash).symm
          have t1 : (((vs.elements.map SetItem.hash_value).filter
              (fun x => x != k.hash)) ++ [k.hash]).Perm
              (k.hash :: ((vs.elements.map SetItem.hash_value).filter
                (fun x => x != k.hash))) :=
            List.perm_append_singleton _ _
          have t2 : (k.hash :: ((vs.elements.map SetItem.hash_value).filter
              (fun x => x != k.hash))).Perm
              (k.hash :: ((am.map Prod.fst).filter fun x => x != k.hash)) :=
            List.Perm.cons _ e1
          have t3 : (k.hash :: ((am.map Prod.fst).filter
              fun x => x != k.hash)).Perm (am.map Prod.fst) := by
            rw [e2]
            exact (List.perm_cons_erase hmemkeys).symm
          exact (t1.trans t2).trans t3
        · intro h2 v2 hl
          by_cases hh : h2 = k.hash
          · subst hh
            rw [amLookup_update_self] at hl
            obtain ⟨w, hw⟩ := Option.isSome_iff_exists.mp hsome
            rw [hw] at hl
            simp only [Option.map_some'] at hl
            cases hl
            exact List.mem_append_right _ (List.mem_singleton.mpr rfl)
          · rw [amLookup_update_ne am k.hash v h2 hh] at hl
            refine List.mem_append_left _ (List.mem_filter.mpr
              ⟨hval h2 v2 hl, by simp [hh]⟩)
    · -- new key: both wrappers are appended
      have hcb : ks.contains_hash k.hash = false := by
        rcases hres : ks.contains_hash k.hash with _ | _
        · rfl
        · exact absurd hres hc
      have hmemk : k.hash ∉ am.map Prod.fst := fun hm =>
        hc ((contains_hash_iff ks k.hash).mpr (hpk.mem_iff.mpr hm))
      have hnot : ¬((amLookup am k.hash).isSome = true) := fun hs =>
        hmemk ((amLookup_isSome_iff am k.hash).mp hs)
      have hcvb : vs.contains_hash k.hash = false :=
        (contains_hash_false_iff _ _).mpr fun hm =>
          hmemk (hpv.mem_iff.mp hm)
      refine ⟨⟨some (⟨ks.elements ++ [⟨k.hash, k.ref⟩]⟩,
          ⟨vs.elements ++ [⟨k.hash, v⟩]⟩)⟩, ?_, ?_⟩
      · simp only [AbstractMap.setitem]
        rw [if_neg (by simp [hcb]), AbstractSet.add,
          if_neg (by simp [hcb]), AbstractSet.add_with_hash,
          if_neg (by simp [hcvb]), AbstractSet.addElement,
          AbstractSet.addElement]
      · rw [amSetStep, if_neg hnot]
        exact MapAbs_insert ks vs am k v ⟨hnd, hpk, hpv, hval⟩ hnot

/-- Embedded `__delitem__` removes a present key from both component
sets (tracking one reference-model delete) and faults without a write
on an absent key or an unallocated map. -/
theorem delitem_step (m : AbstractMap) (am : List (Nat × Nat)) (k : Elem)
    (hinv : MapInv m am) :
    MapInv (match m.delitem k with | .ok m2 => m2 | .error _ => m)
      (amDelStep am k.hash) := by
  rcases m with ⟨_ | ⟨ks, vs⟩⟩
  · have ham : am = [] := hinv
    subst ham
    exact rfl
  · have habs : MapAbs ks vs am := hinv
    rcases habs with ⟨hnd, hpk, hpv, hval⟩
    have hknd : ks.hashes.Nodup := (List.Perm.nodup_iff hpk).mpr hnd
    have hvnd : vs.hashes.Nodup := (List.Perm.nodup_iff hpv).mpr hnd
    by_cases hsome : (amLookup am k.hash).isSome = true
    · have hmemkeys : k.hash ∈ am.map Prod.fst :=
        (amLookup_isSome_iff am k.hash).mp hsome
      have hmk : k.hash ∈ ks.hashes := hpk.mem_iff.mpr hmemkeys
      have hmv : k.hash ∈ vs.hashes := hpv.mem_iff.mpr hmemkeys
      have hck : ks.contains_hash k.hash = true :=
        (contains_hash_iff _ _).mpr hmk
      have hcv : vs.contains_hash k.hash = true :=
        (contains_hash_iff _ _).mpr hmv
      obtain ⟨itk0, hk0, htk0⟩ := List.mem_map.mp hmk
      obtain ⟨itv0, hv0, htv0⟩ := List.mem_map.mp hmv
      have hek : ∃ x, x ∈ ks.elements ∧ (x.hash_value == k.hash) = true :=
        ⟨itk0, hk0, by simp [htk0]⟩
      have hev : ∃ x, x ∈ vs.elements ∧ (x.hash_value == k.hash) = true :=
        ⟨itv0, hv0, by simp [htv0]⟩
      obtain ⟨itk, hfk⟩ := Option.isSome_iff_exists.mp
        (List.find?_isSome.mpr hek)
      obtain ⟨itv, hfv⟩ := Option.isSome_iff_exists.mp
        (List.find?_isSome.mpr hev)
      have hretk : ks.retrieve_by_hash k.hash = .ok itk := by
        rw [AbstractSet.retrieve_by_hash, if_pos hck, hfk]
      have hretv : vs.retrieve_by_hash k.hash = .ok itv := by
        rw [AbstractSet.retrieve_by_hash, if_pos hcv, hfv]
      have hdel : AbstractMap.delitem ⟨some (ks, vs)⟩ k =
          .ok ⟨some (⟨ks.elements.eraseP fun it => it.hash_value == k.hash⟩,
                     ⟨vs.elements.eraseP fun it =>
                       it.hash_value == k.hash⟩)⟩ := by
        simp only [AbstractMap.delitem]
        rw [hretk, hretv]
      rw [hdel, amDelStep, if_pos hsome]
      show MapAbs ⟨ks.elements.eraseP fun it => it.hash_value == k.hash⟩
        ⟨vs.elements.eraseP fun it => it.hash_value == k.hash⟩ _
      rw [eraseP_tag_eq_filter ks.elements hknd,
        eraseP_tag_eq_filter vs.elements hvnd]
      refine ⟨?_, ?_, ?_, ?_⟩
      · rw [amFilter_keys]
        exact hnd.filter _
      · rw [hashes_filter_mk ks k.hash, amFilter_keys]
        exact hpk.filter _
      · rw [hashes_filter_mk vs k.hash, amFilter_keys]
        exact hpv.filter _
      · intro h2 v2 hl
        by_cases hh : h2 = k.hash
        · subst hh
          rw [amLookup_filter_self] at hl
          cases hl
        · rw [amLookup_filter_ne am k.hash h2 hh] at hl
          exact List.mem_filter.mpr ⟨hval h2 v2 hl, by simp [hh]⟩
    · have hmk : k.hash ∉ ks.hashes := fun hm =>
        hsome ((amLookup_isSome_iff am k.hash).mpr (hpk.mem_iff.mp hm))
      have hck : ks.contains_hash k.hash = false :=
        (contains_hash_false_iff _ _).mpr hmk
      have hretk : ks.retrieve_by_hash k.hash = .error .keyError := by
        rw [AbstractSet.retrieve_by_hash, if_neg (by simp [hck])]
      have hdel : AbstractMap.delitem ⟨some (ks, vs)⟩ k =
          .error .keyError := by
        simp only [AbstractMap.delitem]
        rw [hretk]
      rw [hdel, amDelStep, if_neg hsome]
      exact ⟨hnd, hpk, hpv, hval⟩

/-- Running any operation sequence preserves the C3 invariant. -/
theorem runMapOps_inv (ops : List MapOp) :
    ∀ m am, MapInv m am →
      MapInv (runMapOps m ops) (specAssocRun am ops) := by
  induction ops with
  | nil => intro m am h; exact h
  | cons op ops ih =>
      intro m am h
      cases op with
      | set k v =>
          obtain ⟨m2, hm2, hinv2⟩ := setitem_step m am k v h
          simp only [runMapOps, specAssocRun]
          rw [hm2]
          exact ih _ _ hinv2
      | del k =>
          have h2 := delitem_step m am k h
          simp only [runMapOps, specAssocRun]
          rcases hdel : m.delitem k with e | m2 <;> rw [hdel] at h2 <;>
            exact ih _ _ h2

/-- Claim C3: after any sequence of map writes and deletes (from a
freshly created map), the key-Set and value-Set have equal length, the
map's length equals the reference association's, and for every key
present in the key-Set, looking up that key's hash in the value-Set
yields the value most recently assigned to that key (as given by the
spec-modelled reference association `specAssocRun`). -/
theorem claim_C3_map_parallelism (ops : List MapOp) :
    (runMapOps AbstractMap.emptyMap ops).lenOp =
      (specAssocRun [] ops).length ∧
    ∀ ks vs, (runMapOps AbstractMap.emptyMap ops).sets = some (ks, vs) →
      ks.len = vs.len ∧
      ∀ h, ks.contains_hash h = true →
        ∃ v, vs.retrieve_by_hash h = .ok ⟨h, v⟩ ∧
          amLookup (specAssocRun [] ops) h = some v := by
  have hinv := runMapOps_inv ops AbstractMap.emptyMap [] rfl
  constructor
  · rcases hM : (runMapOps AbstractMap.emptyMap ops).sets
      with _ | ⟨ks, vs⟩
    · unfold MapInv at hinv
      rw [hM] at hinv
      unfold AbstractMap.lenOp
      rw [hM, hinv]
      rfl
    · unfold MapInv at hinv
      rw [hM] at hinv
      rcases hinv with ⟨hnd, hpk, hpv, hval⟩
      unfold AbstractMap.lenOp
      rw [hM]
      show ks.len = (specAssocRun [] ops).length
      rw [← hashes_length ks, hpk.length_eq, List.length_map]
  · intro ks vs hM
    have habs : MapAbs ks vs (specAssocRun [] ops) := by
      unfold MapInv at hinv
      rw [hM] at hinv
      exact hinv
    rcases habs with ⟨hnd, hpk, hpv, hval⟩
    constructor
    · rw [← hashes_length ks, ← hashes_length vs, hpk.length_eq,
        hpv.length_eq]
    · intro h hch
      have hmem : h ∈ (specAssocRun [] ops).map Prod.fst :=
        hpk.mem_iff.mp ((contains_hash_iff ks h).mp hch)
      have hsome := (amLookup_isSome_iff (specAssocRun [] ops) h).mpr hmem
      obtain ⟨v, hv⟩ := Option.isSome_iff_exists.mp hsome
      have hwrap : SetItem.mk h v ∈ vs.elements := hval h v hv
      have hvnd : vs.hashes.Nodup := (List.Perm.nodup_iff hpv).mpr hnd
      have hfind := find_tag_of_nodup vs.elements hvnd h v hwrap
      have hcv : vs.contains_hash h = true :=
        (contains_hash_iff _ _).mpr (hpv.mem_iff.mpr hmem)
      refine ⟨v, ?_, hv⟩
      rw [AbstractSet.retrieve_by_hash, if_pos hcv, hfind]

/-- Witness for C3: write key hash 10, write key hash 20, overwrite key
hash 10, delete key hash 20; the map then holds one entry and looking up
hash 10 in the value set yields the value most recently assigned, 300. -/
theorem claim_C3_witness :
    (runMapOps AbstractMap.emptyMap
      [MapOp.set ⟨1, 10⟩ 100, MapOp.set ⟨2, 20⟩ 200,
       MapOp.set ⟨1, 10⟩ 300, MapOp.del ⟨2, 20⟩]).sets =
      some (⟨[⟨10, 1⟩]⟩, ⟨[⟨10, 300⟩]⟩) ∧
    (AbstractSet.mk [⟨10, 1⟩]).len = (AbstractSet.mk [⟨10, 300⟩]).len ∧
    (AbstractSet.mk [⟨10, 300⟩]).retrieve_by_hash 10 = .ok ⟨10, 300⟩ := by
  have hsets : (runMapOps AbstractMap.emptyMap
      [MapOp.set ⟨1, 10⟩ 100, MapOp.set ⟨2, 20⟩ 200,
       MapOp.set ⟨1, 10⟩ 300, MapOp.del ⟨2, 20⟩]).sets =
      some (⟨[⟨10, 1⟩]⟩, ⟨[⟨10, 300⟩]⟩) := by decide
  have h := (claim_C3_map_parallelism
    [MapOp.set ⟨1, 10⟩ 100, MapOp.set ⟨2, 20⟩ 200,
     MapOp.set ⟨1, 10⟩ 300, MapOp.del ⟨2, 20⟩]).2
    ⟨[⟨10, 1⟩]⟩ ⟨[⟨10, 300⟩]⟩ hsets
  obtain ⟨v, hret, hl⟩ := h.2 10 (by decide)
  have h300 : amLookup (specAssocRun []
      [MapOp.set ⟨1, 10⟩ 100, MapOp.set ⟨2, 20⟩ 200,
       MapOp.set ⟨1, 10⟩ 300, MapOp.del ⟨2, 20⟩]) 10 = some 300 := by decide
  have hv : v = 300 := Option.some.inj (hl.symm.trans h300)
  subst hv
  exact ⟨hsets, h.1, hret⟩

/-- Witness for C10 at a freshly created map. -/
theorem claim_C10_witness :
    AbstractMap.emptyMap.lenOp = 0 ∧
    (AbstractMap.emptyMap.containsOp ⟨9, 3⟩).2 = false ∧
    (AbstractMap.emptyMap.containsOp ⟨9, 3⟩).1 =
      ⟨some (AbstractSet.emptySet, AbstractSet.emptySet)⟩ :=
  claim_C10_uninitialised_map AbstractMap.emptyMap rfl ⟨9, 3⟩

/-! ### Lemmas for the staged bulk construction (C9) -/

/-- `contains` on a `Nat` list decides membership. -/
theorem contains_eq_decide_mem (l : List Nat) (a : Nat) :
    l.contains a = decide (a ∈ l) := by
  show l.elem a = _
  exact List.elem_eq_mem a l

/-- `find?` on a list of pairs keyed by first component, one step. -/
theorem find?_pair_cons (q : Nat × Nat) (rest : List (Nat × Nat)) (k : Nat) :
    ((q :: rest).find? fun p => p.1 == k) =
    if q.1 = k then some q else rest.find? fun p => p.1 == k := by
  by_cases h : q.1 = k
  · rw [if_pos h]
    exact List.find?_cons_of_pos _ (by simp [h])
  · rw [if_neg h]
    exact List.find?_cons_of_neg _ (by simp [h])

/-- Staged ids whose successor is also staged: all but the last. -/
theorem range_filter_succ_lt (n : Nat) :
    ((List.range n).filter fun i => decide (i + 1 < n)) =
    List.range (n - 1) := by
  cases n with
  | zero => rfl
  | succ m =>
      rw [List.range_succ, List.filter_append]
      have h1 : ((List.range m).filter fun i => decide (i + 1 < m + 1)) =
          List.range m :=
        List.filter_eq_self.mpr fun a ha =>
          decide_eq_true (Nat.succ_lt_succ (List.mem_range.mp ha))
      have h2 : (([m] : List Nat).filter fun i => decide (i + 1 < m + 1)) =
          [] := by
        simp
      rw [h1, h2, List.append_nil]
      rfl

/-- Staged ids with a staged predecessor: all but the first one. -/
theorem range_filter_pos (n : Nat) :
    ((List.range n).filter fun i => decide (0 < i)) =
    (List.range (n - 1)).map (· + 1) := by
  cases n with
  | zero => rfl
  | succ m =>
      rw [List.range_eq_range', List.range'_succ]
      rw [List.filter_cons_of_neg (by simp)]
      have h1 : ((List.range' 1 m).filter fun i => decide (0 < i)) =
          List.range' 1 m :=
        List.filter_eq_self.mpr fun a ha => by
          have := (List.mem_range'_1.mp ha).1
          exact decide_eq_true (by omega)
      rw [h1, List.range'_eq_map_range]
      exact List.map_congr_left fun a _ => Nat.add_comm 1 a

/-- Exactly one staged item is tagged `item_id = 0` (when any exists). -/
theorem range_filter_eq_zero (n : Nat) :
    ((List.range n).filter fun i => i == 0) =
    if n = 0 then [] else [0] := by
  cases n with
  | zero => rfl
  | succ m =>
      rw [if_neg (Nat.succ_ne_zero m), List.range_eq_range', List.range'_succ]
      rw [List.filter_cons_of_pos (by simp)]
      have h1 : ((List.range' 1 m).filter fun i => i == 0) = [] :=
        List.filter_eq_nil_iff.mpr fun a ha => by
          have := (List.mem_range'_1.mp ha).1
          simp
          omega
      rw [h1]

/-- Looking up the `DLL_NXT` edge leaving item `k` among the chain edges
built over ids `s..s+m-1`. -/
theorem findNxt_range' (m : Nat) : ∀ s k : Nat,
    (((List.range' s m).map fun i => (i, i + 1)).find? fun p => p.1 == k) =
    if s ≤ k ∧ k < s + m then some (k, k + 1) else none := by
  induction m with
  | zero =>
      intro s k
      rw [if_neg (by omega)]
      rfl
  | succ m ih =>
      intro s k
      rw [List.range'_succ, List.map_cons, find?_pair_cons]
      by_cases hk : s = k
      · subst hk
        rw [if_pos rfl, if_pos (by omega)]
      · rw [if_neg hk, ih (s + 1) k]
        by_cases hc : s + 1 ≤ k ∧ k < s + 1 + m
        · rw [if_pos hc, if_pos (by omega)]
        · rw [if_neg hc, if_neg (by omega)]

/-- The same lookup over ids `0..m-1`. -/
theorem findNxt_range (m k : Nat) :
    (((List.range m).map fun i => (i, i + 1)).find? fun p => p.1 == k) =
    if k < m then some (k, k + 1) else none := by
  rw [List.range_eq_range', findNxt_range' m 0 k]
  by_cases h : k < m
  · rw [if_pos (by omega), if_pos h]
  · rw [if_neg (by omega), if_neg h]

/-- Walking the freshly built chain from item `k` with fuel `n - k`
visits `k, k+1, ..., n-1` in order. -/
theorem followNxt_range (n : Nat) : ∀ m k : Nat, k + m = n →
    followNxt ((List.range (n - 1)).map fun i => (i, i + 1)) m k =
    List.range' k m := by
  intro m
  induction m with
  | zero => intro k hk; rfl
  | succ m ih =>
      intro k hk
      show (k :: _) = _
      rw [List.range'_succ]
      refine congrArg (k :: ·) ?_
      rw [findNxt_range (n - 1) k]
      by_cases hm : m = 0
      · subst hm
        rw [if_neg (by omega)]
        rfl
      · rw [if_pos (by omega)]
        show followNxt ((List.range (n - 1)).map fun i => (i, i + 1)) m (k + 1)
            = _
        exact ih (k + 1) (by omega)

/-- Reading a list back by positional access reproduces it. -/
theorem map_getD_range (xs : List Nat) :
    ((List.range xs.length).map fun i => xs.getD i 0) = xs := by
  apply List.ext_getElem (by simp)
  intro i h1 h2
  simp only [List.getElem_map, List.getElem_range,
    List.getD_eq_getElem?_getD]
  rw [List.getElem?_eq_getElem h2]
  rfl

/-- The chain read back from the anchor of a state whose anchor and
`DLL_NXT` edges have the staged-build shape is `0, 1, ..., n-1`. -/
theorem BuildState.chain_eq (s : BuildState)
    (hh : s.headTo = (if s.rows.length = 0 then [] else [0]))
    (hn : s.nxt = ((List.range (s.rows.length - 1)).map fun i => (i, i + 1))) :
    s.chain = List.range s.rows.length := by
  unfold BuildState.chain
  rw [hh, hn]
  by_cases h0 : s.rows.length = 0
  · rw [if_pos h0, h0]
    rfl
  · rw [if_neg h0]
    show followNxt ((List.range (s.rows.length - 1)).map
        fun i => (i, i + 1)) s.rows.length 0 = _
    rw [followNxt_range s.rows.length s.rows.length 0 (by omega),
      ← List.range_eq_range']

/-- Claim C9: on an empty list, `from_query` with a query yielding `n`
rows runs the staged-build protocol in exactly 6 store queries (a
constant independent of `n`: reset length, stage with `item_id`s,
forward links, backward links, head attachment, staging-edge deletion),
after which no staging edge remains, the `length` property is `n`, the
`DLL_NXT`/`DLL_PRV` edges join exactly the adjacent ids `i`/`i+1`, the
anchor points at the item tagged 0, and walking the chain from the
anchor yields the items in row order, holding the row payloads. -/
theorem claim_C9_staged_build (l : DLList) (hempty : l.length = 0)
    (rows : List Nat) :
    ∃ s : BuildState, l.from_query rows false = .ok s ∧
      s.temp = [] ∧
      s.length = rows.length ∧
      s.queries = 6 ∧
      s.nxt = ((List.range (rows.length - 1)).map fun i => (i, i + 1)) ∧
      s.prv = ((List.range (rows.length - 1)).map fun i => (i + 1, i)) ∧
      s.headTo = (if rows.length = 0 then [] else [0]) ∧
      s.chain = List.range rows.length ∧
      s.chainValues = rows := by
  have hok : l.from_query rows false = .ok
      (dropTempLinks (attachHead (linkBackward (linkForward
        (stageRows rows))))) := by
    rw [DLList.from_query, if_neg (by simp), if_neg (by simp [hempty])]
  have hnxt : (dropTempLinks (attachHead (linkBackward (linkForward
      (stageRows rows))))).nxt =
      ((List.range (rows.length - 1)).map fun i => (i, i + 1)) := by
    show ([] ++ (((List.range rows.length).filter fun i =>
        decide (i < rows.length) &&
          (List.range rows.length).contains (i + 1)).map
        fun i => (i, i + 1))) = _
    rw [List.nil_append]
    have hc : ∀ a ∈ List.range rows.length,
        (decide (a < rows.length) &&
          (List.range rows.length).contains (a + 1)) =
        decide (a + 1 < rows.length) := by
      intro a ha
      rw [decide_eq_true (List.mem_range.mp ha), Bool.true_and,
        contains_eq_decide_mem]
      simp [List.mem_range]
    rw [List.filter_congr hc, range_filter_succ_lt]
  have hprv : (dropTempLinks (attachHead (linkBackward (linkForward
      (stageRows rows))))).prv =
      ((List.range (rows.length - 1)).map fun i => (i + 1, i)) := by
    show ([] ++ (((List.range rows.length).filter fun i =>
        decide (0 < i) &&
          (List.range rows.length).contains (i - 1)).map
        fun i => (i, i - 1))) = _
    rw [List.nil_append]
    have hc : ∀ a ∈ List.range rows.length,
        (decide (0 < a) && (List.range rows.length).contains (a - 1)) =
        decide (0 < a) := by
      intro a ha
      by_cases h0 : 0 < a
      · rw [decide_eq_true h0, Bool.true_and,
          contains_eq_decide_mem,
          decide_eq_true (List.mem_range.mpr
            (by have := List.mem_range.mp ha; omega))]
      · rw [decide_eq_false h0, Bool.false_and]
    rw [List.filter_congr hc, range_filter_pos, List.map_map]
    exact List.map_congr_left fun a _ => by simp
  have hhead : (dropTempLinks (attachHead (linkBackward (linkForward
      (stageRows rows))))).headTo =
      (if rows.length = 0 then [] else [0]) := by
    show ([] ++ ((List.range rows.length).filter fun i => i == 0)) = _
    rw [List.nil_append, range_filter_eq_zero]
  have hchain : (dropTempLinks (attachHead (linkBackward (linkForward
      (stageRows rows))))).chain = List.range rows.length :=
    BuildState.chain_eq _ hhead hnxt
  have hvals : (dropTempLinks (attachHead (linkBackward (linkForward
      (stageRows rows))))).chainValues = rows := by
    rw [BuildState.chainValues, hchain]
    exact map_getD_range rows
  exact ⟨_, hok, rfl, rfl, rfl, hnxt, hprv, hhead, hchain, hvals⟩

/-- Witness for C9: a three-row build, evaluated concretely. -/
theorem claim_C9_witness :
    DLList.empty.from_query [7, 8, 9] false =
      .ok ⟨[7, 8, 9], [], [(0, 1), (1, 2)], [(1, 0), (2, 1)], [0], 3, 6⟩ ∧
    (BuildState.mk [7, 8, 9] [] [(0, 1), (1, 2)] [(1, 0), (2, 1)]
      [0] 3 6).chainValues = [7, 8, 9] := by
  obtain ⟨s, hok, _, _, _, _, _, _, _, hvals⟩ :=
    claim_C9_staged_build DLList.empty rfl [7, 8, 9]
  have he : DLList.empty.from_query [7, 8, 9] false =
      .ok ⟨[7, 8, 9], [], [(0, 1), (1, 2)], [(1, 0), (2, 1)], [0], 3, 6⟩ :=
    rfl
  have hs : s = ⟨[7, 8, 9], [], [(0, 1), (1, 2)], [(1, 0), (2, 1)],
      [0], 3, 6⟩ :=
    Except.ok.inj ((hok.symm).trans he)
  rw [hs] at hvals
  exact ⟨he, hvals⟩

end Neoads
